import Mathlib

/-!
Verification development for the vue-number-format repository.

The repository's `src/core.ts` (event handlers, value update and clamping,
cursor arithmetic) is embedded shallowly below.  Strings are modelled as
`List Char`, JS numbers used for the `min`/`max` bounds as `Int` (the bounds
used by the handlers are plain numeric configuration values), and the result
of JS `Number(string)` as `Option ℚ` (`none` standing for `NaN`).

The `NumberFormat` class (file `number-format.ts`) is imported by `core.ts`
but is not part of the sources; its `format`/`unformat` operations are
modelled from the specification (spec section 4.1) and are marked as such.
-/

set_option maxHeartbeats 1000000

abbrev Str := List Char

/-- Masking options, from the `Options` interface of `src/core.ts`.
`pre`/`suf` stand for the `prefix`/`suffix` fields; `min`/`max` are the
inclusive numeric bounds (modelled as integers). -/
structure Options where
  pre : Str
  suf : Str
  separator : Char
  decimal : Char
  precision : Nat
  minFracDigits : Nat
  prefill : Bool
  reverseFill : Bool
  min : Int
  max : Int
  nullValue : Str
deriving DecidableEq

/-- Sign, integer digits (most significant first) and fractional digits of a
parsed numeric string; digits are naturals below 10. -/
structure NumParts where
  neg : Bool
  intDigits : List Nat
  fracDigits : List Nat
deriving DecidableEq

def digitChar (d : Nat) : Char := Char.ofNat (48 + d)

def charDigit (c : Char) : Nat := c.toNat - 48

def digitsToNat (ds : List Nat) : Nat := ds.foldl (fun a d => 10 * a + d) 0

/-- Fueled decimal digit expansion of a natural number (most significant
digit first); the fuel argument keeps the recursion structural. -/
def natDigitsAux : Nat → Nat → List Nat
  | 0, _ => []
  | fuel + 1, n => if n = 0 then [] else natDigitsAux fuel (n / 10) ++ [n % 10]

def natDigits (n : Nat) : List Nat :=
  if n = 0 then [0] else natDigitsAux (n + 1) n

/-- Decimal string of an integer, used when the handlers feed the numeric
`min`/`max` bounds to the formatter. -/
def intToStr (m : Int) : Str :=
  (if m < 0 then ['-'] else []) ++ (natDigits m.natAbs).map digitChar

/-- Modelled from the spec: `format` accepts a numeric-looking string (an
optional leading minus, digits, at most one decimal point); this parser
recognises exactly those strings and splits them into sign, integer digits
and fractional digits, failing on anything else. -/
def parseNumeric (s : Str) : Option NumParts :=
  let neg : Bool := s.head? == some '-'
  let s1 := if s.head? == some '-' then s.tail else s
  let ip := s1.takeWhile (fun c => !(c == '.'))
  let rp := s1.dropWhile (fun c => !(c == '.'))
  let fp := rp.tail
  if ip.all Char.isDigit && fp.all Char.isDigit && (!ip.isEmpty || !fp.isEmpty) then
    some ⟨neg, ip.map charDigit, fp.map charDigit⟩
  else
    none

/-- Increment of a little-endian digit list (carry propagation). -/
def incLE : List Nat → List Nat
  | [] => [1]
  | d :: rest => if d = 9 then 0 :: incLE rest else (d + 1) :: rest

/-- Increment of a big-endian digit list. -/
def succDigits (ds : List Nat) : List Nat := (incLE ds.reverse).reverse

/-- Modelled from the spec: round the fractional digits to `p` digits using
round-half-away-from-zero on the magnitude; a round-up may carry into the
integer digits. -/
def roundTo (p : Nat) (ip fp : List Nat) : List Nat × List Nat :=
  if fp.length ≤ p then (ip, fp)
  else
    let kept := fp.take p
    let nxt := fp.getD p 0
    if 5 ≤ nxt then
      let allDs := succDigits (ip ++ kept)
      (allDs.take (allDs.length - p), allDs.drop (allDs.length - p))
    else (ip, kept)

/-- Remove leading zeros of a reversed fractional-digit list while more than
`m` digits remain (i.e. trim trailing zeros down to, but not below, `m`). -/
def trimRev (m : Nat) : List Nat → List Nat
  | [] => []
  | d :: rest => if d = 0 ∧ m < rest.length + 1 then trimRev m rest else d :: rest

/-- Modelled from the spec: pad the fractional digits with trailing zeros up
to `m` digits and trim trailing zeros beyond that down to `m`. -/
def padTrim (m : Nat) (fp : List Nat) : List Nat :=
  (trimRev m (fp ++ List.replicate (m - fp.length) 0).reverse).reverse

/-- Modelled from the spec: the value normalisation performed by `format`:
round to `precision` digits, then pad/trim the fraction against
`minimumFractionDigits`; a value whose digits all vanish is rendered as
zero. -/
def canonicalize (opts : Options) (n : NumParts) : NumParts :=
  let ir := roundTo opts.precision n.intDigits n.fracDigits
  let f1 := padTrim opts.minFracDigits ir.2
  if ir.1 = [] ∧ f1 = [] then ⟨n.neg, [0], f1⟩ else ⟨n.neg, ir.1, f1⟩

/-- Insert the separator after every third digit of a reversed
(least-significant-first) digit-character list. -/
def grpRev (sep : Char) : List Char → Nat → List Char
  | [], _ => []
  | c :: rest, i =>
    if (i + 1) % 3 = 0 ∧ rest ≠ [] then c :: sep :: grpRev sep rest (i + 1)
    else c :: grpRev sep rest (i + 1)

/-- Modelled from the spec: insert the grouping separator every three digits
of the integer part, counting from its right end. -/
def groupDigits (sep : Char) (ds : List Char) : List Char :=
  (grpRev sep ds.reverse 0).reverse

/-- Modelled from the spec: render a normalised value as the masked display
string: prefix, then the sign (which coincides with placing the sign before
an empty prefix), grouped integer digits, decimal character and fraction (if
any), then the suffix. -/
def renderNum (opts : Options) (n : NumParts) : Str :=
  opts.pre ++
    ((if n.neg then ['-'] else []) ++
      (groupDigits opts.separator (n.intDigits.map digitChar) ++
        ((if n.fracDigits = [] then [] else opts.decimal :: n.fracDigits.map digitChar) ++
          opts.suf)))

/-- Canonical plain numeric string of a parsed value (sign, integer digits,
dot and fraction when the fraction is nonempty). -/
def canonStr (n : NumParts) : Str :=
  (if n.neg then ['-'] else []) ++
    (n.intDigits.map digitChar ++
      (if n.fracDigits = [] then [] else '.' :: n.fracDigits.map digitChar))

/-- Modelled from the spec: `NumberFormat.format`: an empty value yields the
empty string (or a formatted zero when `prefill` is set); a numeric-looking
string is normalised (rounding, fraction padding/trimming) and rendered with
separators, prefix and suffix; anything else degrades to the empty string. -/
def nfFormat (opts : Options) (s : Str) : Str :=
  if s = [] ∧ opts.prefill then renderNum opts (canonicalize opts ⟨false, [0], []⟩)
  else
    match parseNumeric s with
    | none => []
    | some n => renderNum opts (canonicalize opts n)

/-- Character class kept by `unformat`: digits, the sign and the decimal
character. -/
def keepChar (opts : Options) (c : Char) : Bool :=
  c.isDigit || c == '-' || c == opts.decimal

/-- Modelled from the spec: the reverse-fill collapse of `unformat` in clean
mode: when no decimal character was typed the digits are reinterpreted
cents-first, the last `precision` digits becoming the fraction. -/
def reverseCollapse (p : Nat) (s : Str) : Str :=
  if p = 0 ∨ s.length ≤ p then s
  else s.take (s.length - p) ++ '.' :: s.drop (s.length - p)

/-- Modelled from the spec: `NumberFormat.unformat`: strip the prefix and the
suffix, drop every character that is not a digit, a sign or the decimal
character (this also removes every separator), normalise the decimal
character to a dot, apply the reverse-fill collapse when both the clean flag
and the `reverseFill` option are active, and return the empty string when no
digit remains. -/
def nfUnformat (opts : Options) (cleanFlag : Bool) (s : Str) : Str :=
  let s1 := if opts.pre.isPrefixOf s then s.drop opts.pre.length else s
  let s2 := if opts.suf.isSuffixOf s1 then s1.take (s1.length - opts.suf.length) else s1
  let s3 := s2.filter (keepChar opts)
  let s4 := s3.map (fun c => if c == opts.decimal then '.' else c)
  let s5 := if cleanFlag ∧ opts.reverseFill = true ∧ !(s4.contains '.') then
      reverseCollapse opts.precision s4
    else s4
  if s4.any Char.isDigit then s5 else []

/-- Rational value of a parsed numeric string. -/
def ratOfParts (n : NumParts) : ℚ :=
  let mag : ℚ :=
    (digitsToNat n.intDigits : ℚ) +
      (digitsToNat n.fracDigits : ℚ) / (10 : ℚ) ^ n.fracDigits.length
  if n.neg then -mag else mag

/-- Result of JS `Number(string)` on the clean numeric strings handled by the
engine: the empty string is zero, a numeric-looking string has its value and
anything else is `NaN` (`none`). -/
def jsNumber (s : Str) : Option ℚ :=
  if s = [] then some 0 else (parseNumeric s).map ratOfParts

/-- Boolean test of `Number(u) > b` under JS semantics (`NaN` compares
false). -/
def numGT (q : Option ℚ) (b : Int) : Bool :=
  match q with
  | some q => decide ((b : ℚ) < q)
  | none => false

/-- Boolean test of `Number(u) < b` under JS semantics (`NaN` compares
false). -/
def numLT (q : Option ℚ) (b : Int) : Bool :=
  match q with
  | some q => decide (q < (b : ℚ))
  | none => false

/-- State of a bound input element: the DOM `value` plus the `masked`,
`unmaskedValue` and `oldValue` fields the directive stores on it, and the
cursor position `selectionEnd` (`none` for a null selection). -/
structure FieldEl where
  value : Str
  masked : Str
  unmaskedValue : Str
  oldValue : Str
  selectionEnd : Option Nat
deriving DecidableEq

/-- Embedding of `updateValue` from `src/core.ts`: when forced or when the
stored `oldValue` differs from the current raw value, recompute the masked
and unmasked values; with `clean` set, clamp against truthy (nonzero) `max`
and `min` bounds by formatting the bound itself; the boolean result records
whether a facade input event was dispatched. -/
def updateValueModel (opts : Options) (el : FieldEl) (emit force clean : Bool) :
    FieldEl × Bool :=
  if force = true ∨ el.oldValue ≠ el.value then
    let masked := nfFormat opts el.value
    let unmasked := nfUnformat opts (!opts.reverseFill) el.value
    let mu :=
      if clean = true then
        if opts.max ≠ 0 ∧ numGT (jsNumber unmasked) opts.max = true then
          (nfFormat opts (intToStr opts.max),
            nfUnformat opts (!opts.reverseFill) (intToStr opts.max))
        else if opts.min ≠ 0 ∧ numLT (jsNumber unmasked) opts.min = true then
          (nfFormat opts (intToStr opts.min),
            nfUnformat opts (!opts.reverseFill) (intToStr opts.min))
        else (masked, unmasked)
      else (masked, unmasked)
    ({ el with masked := mu.1, unmaskedValue := mu.2, value := mu.1 }, emit)
  else (el, false)

/-- Cursor recomputation of `inputHandler` step 3: floor the
position-from-end against the suffix length, re-express it from the start of
the new string and floor against the prefix length; the flooring steps are
skipped for empty (falsy) affixes, exactly as in the source. -/
def floorPos (opts : Options) (pfe newLen : Nat) : Int :=
  let pfe1 := if opts.suf ≠ [] then max pfe opts.suf.length else pfe
  let pos0 : Int := (newLen : Int) - (pfe1 : Int)
  if opts.pre ≠ [] then max pos0 (opts.pre.length : Int) else pos0

/-- Position-from-end captured by `inputHandler` before recomputing the
value: the distance from `selectionEnd` to the end of the raw value, with a
null or 0 (falsy) `selectionEnd` falling back to the whole raw length. -/
def pfeOf (el : FieldEl) : Nat :=
  match el.selectionEnd with
  | some k => if k = 0 then el.value.length else el.value.length - k
  | none => el.value.length

/-- Result of one run of the input handler: the new element state, the
cursor position it sets (if any) and whether a facade input event was
dispatched at the end. -/
structure InputResult where
  el : FieldEl
  cursor : Option Int
  notified : Bool
deriving DecidableEq

/-- Embedding of `inputHandler` from `src/core.ts`: facade events
short-circuit; otherwise the position-from-end is taken from `selectionEnd`
(falling back to the whole length when it is null or 0), the value is
recomputed without emitting, the cursor is floored against the affixes, and
when the captured `oldValue` differs from the new value the stored
`oldValue` is set to the captured (pre-update) `masked` and a facade input
event is dispatched. -/
def inputHandlerModel (opts : Options) (el : FieldEl) (facade : Bool) : InputResult :=
  if facade then ⟨el, none, false⟩
  else
    let oldValue := el.oldValue
    let masked0 := el.masked
    let pfe0 : Nat := pfeOf el
    let el1 := (updateValueModel opts el false false false).1
    let pos := floorPos opts pfe0 el1.value.length
    if oldValue ≠ el1.value then ⟨{ el1 with oldValue := masked0 }, some pos, true⟩
    else ⟨el1, some pos, false⟩

/-- Result of one run of the blur handler: the new element state, whether a
facade input event was dispatched by `updateValue`, and whether a facade
change event was dispatched at the end. -/
structure BlurResult where
  el : FieldEl
  facadeInput : Bool
  facadeChange : Bool
deriving DecidableEq

/-- Embedding of `blurHandler` from `src/core.ts`: facade events
short-circuit; otherwise the value is recomputed with `force` and `clean`
set (emitting a facade input event), and when the captured `oldValue`
differs from the new value the stored `oldValue` is set to the captured
(pre-update) `masked` and a facade change event is dispatched. -/
def blurHandlerModel (opts : Options) (el : FieldEl) (facade : Bool) : BlurResult :=
  if facade then ⟨el, false, false⟩
  else
    let oldValue := el.oldValue
    let masked0 := el.masked
    let r := updateValueModel opts el true true true
    if oldValue ≠ r.1.value then ⟨{ r.1 with oldValue := masked0 }, r.2, true⟩
    else ⟨r.1, r.2, false⟩

/-- JS `String.prototype.slice` on character lists: negative indices count
from the end, indices are clamped to the string and an empty slice results
when the normalised start is not before the end. -/
def jsSlice (s : Str) (a b : Int) : Str :=
  let L : Int := s.length
  let norm : Int → Nat := fun i => if i < 0 then (L + i).toNat else (min i L).toNat
  (s.take (norm b)).drop (norm a)

/-- Index of the first occurrence of `pat` inside `s` (the empty pattern
matches at index 0), as used by JS `String.prototype.replace` with a plain
string pattern. -/
def subIndex : Str → Str → Option Nat
  | [], pat => if pat.isEmpty then some 0 else none
  | c :: rest, pat =>
    if pat.isPrefixOf (c :: rest) then some 0 else (subIndex rest pat).map (· + 1)

/-- JS `String.prototype.replace(pat, '')` with a plain string pattern:
remove the first occurrence of `pat`, leaving the string unchanged when
there is none. -/
def jsReplaceFirst (s pat : Str) : Str :=
  match subIndex s pat with
  | some i => s.take i ++ s.drop (i + pat.length)
  | none => s

/-- Remove every occurrence of `pat` from a string, scanning left to right
(fuelled to keep the recursion structural). -/
def removeAllSubAux (pat : Str) : Nat → Str → Str
  | 0, s => s
  | _ + 1, [] => []
  | fuel + 1, c :: rest =>
    if pat ≠ [] ∧ pat.isPrefixOf (c :: rest) then
      removeAllSubAux pat fuel ((c :: rest).drop pat.length)
    else c :: removeAllSubAux pat fuel rest

def removeAllSub (pat s : Str) : Str := removeAllSubAux pat s.length s

/-- The `newValue` computed by `keydownHandler`: the source deletes the
occurrences of the configured affixes with a global RegExp built from them;
modelled as literal substring removal (an empty affix removes nothing). -/
def stripAffixes (opts : Options) (s : Str) : Str :=
  removeAllSub opts.pre (removeAllSub opts.suf s)

/-- One-character string immediately before the cursor (empty when the
cursor is at the start), as extracted by the keydown handler with
`value.slice(selectionEnd - 1, selectionEnd)`. -/
def charBefore (el : FieldEl) : Str :=
  jsSlice el.value (((el.selectionEnd.getD 0 : Nat) : Int) - 1) ((el.selectionEnd.getD 0 : Nat) : Int)

/-- Two-character string ending at the cursor, as extracted by the keydown
handler with `value.slice(selectionEnd - 2, selectionEnd)`. -/
def twoBefore (el : FieldEl) : Str :=
  jsSlice el.value (((el.selectionEnd.getD 0 : Nat) : Int) - 2) ((el.selectionEnd.getD 0 : Nat) : Int)

/-- Keydown event payload: the key string and the legacy key code. -/
structure KeyEvent where
  key : Str
  keyCode : Nat
deriving DecidableEq

/-- Result of one run of the keydown handler: whether the default action was
prevented, the (possibly rewritten) element value, the cursor position it
sets (if any) and whether a plain input event was dispatched. -/
structure KeyResult where
  prevented : Bool
  value : Str
  cursor : Option Int
  inputEvent : Bool
deriving DecidableEq

/-- Embedding of `keydownHandler` from `src/core.ts`: the decision table is
evaluated in order: a second decimal character is suppressed; key code 109
(the numpad minus) is suppressed unless `min < 0`; on backspace (key code
8), when the character before the cursor is the separator the handler
removes the first occurrence of the two-character slice before the cursor,
refloors the cursor and dispatches an input event, and when that character
equals the whole prefix string or is a minus the field is cleared. -/
def keydownHandlerModel (opts : Options) (el : FieldEl) (ev : KeyEvent) : KeyResult :=
  let newValue := stripAffixes opts el.value
  let canNegativeInput := opts.min < 0
  if ((ev.keyCode = 110 ∨ ev.keyCode = 190) ∨ ev.key = [opts.decimal]) ∧
      newValue.contains opts.decimal = true then
    ⟨true, el.value, none, false⟩
  else if ev.keyCode = 109 ∧ ¬canNegativeInput then
    ⟨true, el.value, none, false⟩
  else if ev.keyCode = 8 then
    let character := charBefore el
    let toDelete := twoBefore el
    if character = [opts.separator] then
      let pfe0 := el.value.length - el.selectionEnd.getD 0
      let v1 := jsReplaceFirst el.value toDelete
      ⟨true, v1, some (floorPos opts pfe0 v1.length), true⟩
    else if character = opts.pre ∨ character = ['-'] then
      ⟨true, [], none, true⟩
    else ⟨false, el.value, none, false⟩
  else ⟨false, el.value, none, false⟩

/-! Concrete fixtures used by witnesses and counterexamples. -/

/-- Options with an empty prefix and suffix, `min = 0` (a falsy bound) and
`max = 100`. -/
def c1opts : Options := ⟨[], [], ',', '.', 0, 0, false, false, 0, 100, []⟩

/-- Field whose displayed value is the negative string -5. -/
def c1el : FieldEl := ⟨"-5".data, "-5".data, "-5".data, [], none⟩

/-- Field whose displayed value 150 exceeds the max bound 100. -/
def c1wel : FieldEl := ⟨"150".data, [], [], [], none⟩

/-- Plain options with `min = 0` (negative input not allowed). -/
def c2opts : Options := ⟨[], [], ',', '.', 0, 0, false, false, 0, 0, []⟩

def c2el : FieldEl := ⟨"5".data, "5".data, "5".data, "5".data, some 1⟩

/-- Main-row minus keystroke: key is the minus character, key code 189. -/
def c2ev : KeyEvent := ⟨"-".data, 189⟩

/-- Numpad minus keystroke: key is the minus character, key code 109. -/
def c2wev : KeyEvent := ⟨"-".data, 109⟩

def c3opts : Options := ⟨[], [], ',', '.', 2, 0, false, false, 0, 0, []⟩

/-- Field showing 1,231,234 with the cursor directly after the second
separator, where the two-character slice before the cursor also occurs at
the start of the string. -/
def c3el : FieldEl :=
  ⟨"1,231,234".data, "1,231,234".data, "1231234".data, "1,231,234".data, some 6⟩

/-- Field showing 1,234 with the cursor directly after the separator (the
example of the specification). -/
def c3wel : FieldEl := ⟨"1,234".data, "1,234".data, "1234".data, "1,234".data, some 2⟩

/-- Backspace keystroke (key code 8). -/
def bsEv : KeyEvent := ⟨"Backspace".data, 8⟩

/-- Options with the two-character prefix R$. -/
def c4opts : Options := ⟨"R$".data, [], ',', '.', 2, 0, false, false, 0, 0, []⟩

/-- Field showing R$1 with the cursor directly after the dollar sign, the
last character of the prefix. -/
def c4el : FieldEl := ⟨"R$1".data, "R$1".data, "1".data, "R$1".data, some 2⟩

/-- Options with the single-character prefix dollar. -/
def c4wopts : Options := ⟨"$".data, [], ',', '.', 2, 0, false, false, 0, 0, []⟩

/-- Field showing dollar-1 with the cursor directly after the dollar sign. -/
def c4wel : FieldEl := ⟨"$1".data, "$1".data, "1".data, "$1".data, some 1⟩

/-- Options with a dollar prefix, comma separator and two-digit precision. -/
def c5opts : Options := ⟨"$".data, [], ',', '.', 2, 0, false, false, 0, 0, []⟩

def c5x : Str := "1234.567".data

/-- Plain options with zero precision. -/
def c6opts : Options := ⟨[], [], ',', '.', 0, 0, false, false, 0, 0, []⟩

/-- Field mid-edit: the raw value is 12 while the last produced masked value
and the stored old value are 1. -/
def c6el : FieldEl := ⟨"12".data, "1".data, "1".data, "1".data, some 2⟩

/-- Field mid-edit: the raw value 1-dot reformats to 1, which equals the
stored old value. -/
def c6wel : FieldEl := ⟨"1.".data, "1".data, "1".data, "1".data, some 2⟩

def c7opts : Options := ⟨[], [], ',', '.', 0, 0, false, false, 0, 0, []⟩

def c7el : FieldEl := ⟨"12".data, "1".data, "1".data, "1".data, some 2⟩

/-- Options with an empty prefix and the two-character suffix ab. -/
def c8opts : Options := ⟨[], "ab".data, ',', '.', 2, 0, false, false, 0, 0, []⟩

/-- Field whose raw value is much longer than its reformatted value. -/
def c8el : FieldEl := ⟨"0.000000".data, [], [], [], none⟩

/-- Options with a dollar prefix and the two-character suffix ab. -/
def c8wopts : Options := ⟨"$".data, "ab".data, ',', '.', 2, 0, false, false, 0, 0, []⟩

def c8wel : FieldEl := ⟨"1234.5".data, [], [], [], some 3⟩

def c9opts : Options := ⟨"$".data, [], ',', '.', 2, 0, false, false, 0, 0, []⟩

def c9el : FieldEl := ⟨"1,234".data, "1,234".data, "1234".data, "1,234".data, some 2⟩

/-- Options whose prefix is the empty string. -/
def c10opts : Options := ⟨[], [], ',', '.', 2, 0, false, false, 0, 0, []⟩

/-- Field with the cursor at the very start (selectionEnd 0). -/
def c10el : FieldEl := ⟨"1,2".data, "1,2".data, "12".data, "1,2".data, some 0⟩

/-! Helper lemmas about the embedded handlers. -/

theorem updateValueModel_oldValue (opts : Options) (el : FieldEl) (e f c : Bool) :
    ((updateValueModel opts el e f c).1).oldValue = el.oldValue := by
  simp only [updateValueModel]
  split <;> rfl

theorem inputHandlerModel_cursor (opts : Options) (el : FieldEl) :
    (inputHandlerModel opts el false).cursor =
      some (floorPos opts (pfeOf el) ((updateValueModel opts el false false false).1.value.length)) := by
  simp only [inputHandlerModel]
  split
  · simp_all
  · split <;> rfl

theorem inputHandlerModel_value (opts : Options) (el : FieldEl) :
    (inputHandlerModel opts el false).el.value =
      (updateValueModel opts el false false false).1.value := by
  simp only [inputHandlerModel]
  split
  · simp_all
  · split <;> rfl

theorem floorPos_bounds (opts : Options) (pfe L : Nat)
    (h : opts.pre.length + opts.suf.length ≤ L) :
    floorPos opts pfe L ≤ (L : Int) - (opts.suf.length : Int) ∧
      (opts.pre ≠ [] → (opts.pre.length : Int) ≤ floorPos opts pfe L) := by
  simp only [floorPos]
  split_ifs with h1 h2 h3
  · exact ⟨by omega, fun _ => by omega⟩
  · have hs : opts.suf.length = 0 := by simp_all
    exact ⟨by omega, fun _ => by omega⟩
  · exact ⟨by omega, fun hc => absurd hc h1⟩
  · have hs : opts.suf.length = 0 := by simp_all
    exact ⟨by omega, fun hc => absurd hc h1⟩

/-- C9: input and blur events carrying the facade marker short-circuit: the
handlers return immediately, leaving the field state untouched, setting no
cursor and dispatching no further event. -/
theorem c9_facade_events_short_circuit (opts : Options) (el : FieldEl) :
    inputHandlerModel opts el true = ⟨el, none, false⟩ ∧
      blurHandlerModel opts el true = ⟨el, false, false⟩ :=
  ⟨rfl, rfl⟩

/-- C2 (amended): a keydown whose legacy key code is 109 (the numpad minus)
is suppressed whenever `min` is nonnegative; the main-row minus key (key
code 189) is not covered by this branch. -/
theorem c2_numpad_minus_suppressed (opts : Options) (el : FieldEl) (ev : KeyEvent)
    (hcode : ev.keyCode = 109) (hmin : 0 ≤ opts.min) :
    (keydownHandlerModel opts el ev).prevented = true := by
  simp only [keydownHandlerModel]
  by_cases h1 : ((ev.keyCode = 110 ∨ ev.keyCode = 190) ∨ ev.key = [opts.decimal]) ∧
      (stripAffixes opts el.value).contains opts.decimal = true
  · rw [if_pos h1]
  · rw [if_neg h1, if_pos ⟨hcode, by omega⟩]

theorem c2_witness :
    c2wev.keyCode = 109 ∧ 0 ≤ c2opts.min ∧
      (keydownHandlerModel c2opts c2el c2wev).prevented = true :=
  ⟨rfl, by decide, c2_numpad_minus_suppressed c2opts c2el c2wev rfl (by decide)⟩

/-- C2 counterexample: a keydown with key the minus character produced by
the main row (key code 189) is not suppressed although `min = 0`, refuting
the claim that every minus keystroke is suppressed regardless of the
physical key. -/
theorem c2_counterexample :
    c2ev.key = "-".data ∧ 0 ≤ c2opts.min ∧
      (keydownHandlerModel c2opts c2el c2ev).prevented = false := by
  refine ⟨rfl, by decide, ?_⟩
  decide

/-- C10: on a backspace keydown with the cursor at the very start of the
field and an empty configured prefix, the extracted character before the
cursor is the empty string, which equals the empty prefix, so the handler
suppresses the deletion, clears the whole field and dispatches an input
event. -/
theorem c10_backspace_at_start_empty_prefix (opts : Options) (el : FieldEl) (ev : KeyEvent)
    (hpre : opts.pre = []) (hkey : ev.key = "Backspace".data) (hcode : ev.keyCode = 8)
    (hsel : el.selectionEnd = none ∨ el.selectionEnd = some 0) :
    (keydownHandlerModel opts el ev).prevented = true ∧
      (keydownHandlerModel opts el ev).value = [] ∧
      (keydownHandlerModel opts el ev).inputEvent = true := by
  have hkd : ev.key ≠ [opts.decimal] := by
    rw [hkey]
    intro h
    have hlen := congrArg List.length h
    simp at hlen
  have h1 : ¬(((ev.keyCode = 110 ∨ ev.keyCode = 190) ∨ ev.key = [opts.decimal]) ∧
      (stripAffixes opts el.value).contains opts.decimal = true) := by
    rintro ⟨(h | h) | h, -⟩ <;> first | omega | exact hkd h
  have h2 : ¬(ev.keyCode = 109 ∧ ¬opts.min < 0) := by
    rintro ⟨h, -⟩; omega
  have hsel0 : el.selectionEnd.getD 0 = 0 := by
    rcases hsel with h | h <;> simp [h]
  have hempty : charBefore el = [] := by
    simp [charBefore, hsel0, jsSlice]
  simp only [keydownHandlerModel, if_neg h1, if_neg h2, if_pos hcode, hempty]
  have hns : ([] : Str) ≠ [opts.separator] := by simp
  rw [if_neg hns, if_pos (Or.inl hpre.symm)]
  exact ⟨rfl, rfl, rfl⟩

theorem c10_witness :
    c10opts.pre = [] ∧ c10el.selectionEnd = some 0 ∧
      (keydownHandlerModel c10opts c10el bsEv).prevented = true ∧
      (keydownHandlerModel c10opts c10el bsEv).value = [] ∧
      (keydownHandlerModel c10opts c10el bsEv).inputEvent = true :=
  ⟨rfl, rfl,
    c10_backspace_at_start_empty_prefix c10opts c10el bsEv rfl rfl rfl (Or.inr rfl)⟩

theorem jsSlice_nat (s : Str) (a b : Nat) :
    jsSlice s (a : Int) (b : Int) = (s.take (min b s.length)).drop (min a s.length) := by
  simp only [jsSlice]
  have h1 : ¬((a : Int) < 0) := by omega
  have h2 : ¬((b : Int) < 0) := by omega
  rw [if_neg h2, if_neg h1]
  have ha : (min (a : Int) (s.length : Int)).toNat = min a s.length := by omega
  have hb : (min (b : Int) (s.length : Int)).toNat = min b s.length := by omega
  rw [ha, hb]

/-- C4 (amended): on a backspace keydown, when the one-character string
before the cursor is not the separator and equals the entire prefix string
(possible only when the prefix is that single character, or empty at the
field start) or is a minus, the handler suppresses deletion, clears the
field and dispatches an input event; the last character of a longer prefix
does not trigger this branch. -/
theorem c4_backspace_clears_on_whole_prefix_or_minus (opts : Options) (el : FieldEl)
    (ev : KeyEvent) (hcode : ev.keyCode = 8) (hkey : ev.key ≠ [opts.decimal])
    (hnsep : charBefore el ≠ [opts.separator])
    (hchar : charBefore el = opts.pre ∨ charBefore el = ['-']) :
    (keydownHandlerModel opts el ev).prevented = true ∧
      (keydownHandlerModel opts el ev).value = [] ∧
      (keydownHandlerModel opts el ev).inputEvent = true := by
  have h1 : ¬(((ev.keyCode = 110 ∨ ev.keyCode = 190) ∨ ev.key = [opts.decimal]) ∧
      (stripAffixes opts el.value).contains opts.decimal = true) := by
    rintro ⟨(h | h) | h, -⟩ <;> first | omega | exact hkey h
  have h2 : ¬(ev.keyCode = 109 ∧ ¬opts.min < 0) := by
    rintro ⟨h, -⟩; omega
  simp only [keydownHandlerModel, if_neg h1, if_neg h2, if_pos hcode, if_neg hnsep,
    if_pos hchar]
  refine ⟨?_, ?_, ?_⟩ <;> trivial

theorem c4_witness :
    charBefore c4wel = c4wopts.pre ∧
      (keydownHandlerModel c4wopts c4wel bsEv).prevented = true ∧
      (keydownHandlerModel c4wopts c4wel bsEv).value = [] ∧
      (keydownHandlerModel c4wopts c4wel bsEv).inputEvent = true :=
  ⟨by decide,
    c4_backspace_clears_on_whole_prefix_or_minus c4wopts c4wel bsEv rfl (by decide)
      (by decide) (Or.inl (by decide))⟩

/-- C4 counterexample: with the two-character prefix R$ and the cursor right
after its last character, backspace is not suppressed and the field is not
cleared, because the one-character extraction never equals a two-character
prefix — refuting the claim for multi-character prefixes. -/
theorem c4_counterexample :
    c4opts.pre.getLast? = some '$' ∧ charBefore c4el = ['$'] ∧
      (keydownHandlerModel c4opts c4el bsEv).prevented = false ∧
      (keydownHandlerModel c4opts c4el bsEv).value = "R$1".data ∧
      (keydownHandlerModel c4opts c4el bsEv).inputEvent = false := by
  refine ⟨rfl, by decide, ?_, ?_, ?_⟩ <;> decide

/-- C3 (amended): on a backspace keydown with the separator immediately
before the cursor, the handler suppresses default deletion, dispatches an
input event, refloors the cursor with the same prefix/suffix rule as the
input handler, and removes the first occurrence in the whole string of the
two-character slice ending at the cursor; when that first occurrence is the
pair at the cursor (hypothesis `hfirst`), this deletes the separator and the
digit before it at the cursor, as in the 1,234 example of the spec. -/
theorem c3_backspace_over_separator (opts : Options) (el : FieldEl) (ev : KeyEvent)
    (k : Nat) (hcode : ev.keyCode = 8) (hkey : ev.key ≠ [opts.decimal])
    (hsel : el.selectionEnd.getD 0 = k) (hk2 : 2 ≤ k) (hkL : k ≤ el.value.length)
    (hchar : charBefore el = [opts.separator])
    (hfirst : subIndex el.value (twoBefore el) = some (k - 2)) :
    (keydownHandlerModel opts el ev).prevented = true ∧
      (keydownHandlerModel opts el ev).value = el.value.take (k - 2) ++ el.value.drop k ∧
      (keydownHandlerModel opts el ev).inputEvent = true ∧
      (keydownHandlerModel opts el ev).cursor =
        some (floorPos opts (el.value.length - k)
          ((el.value.take (k - 2) ++ el.value.drop k).length)) := by
  have h1 : ¬(((ev.keyCode = 110 ∨ ev.keyCode = 190) ∨ ev.key = [opts.decimal]) ∧
      (stripAffixes opts el.value).contains opts.decimal = true) := by
    rintro ⟨(h | h) | h, -⟩ <;> first | omega | exact hkey h
  have h2 : ¬(ev.keyCode = 109 ∧ ¬opts.min < 0) := by
    rintro ⟨h, -⟩; omega
  have hlen2 : (twoBefore el).length = 2 := by
    have : twoBefore el = (el.value.take (min k el.value.length)).drop (min (k - 2) el.value.length) := by
      have hc : ((k : Nat) : Int) - 2 = ((k - 2 : Nat) : Int) := by omega
      rw [twoBefore, hsel, hc, jsSlice_nat]
    rw [this]
    simp [List.length_drop]
    omega
  have hrepl : jsReplaceFirst el.value (twoBefore el) =
      el.value.take (k - 2) ++ el.value.drop k := by
    simp only [jsReplaceFirst, hfirst, hlen2]
    have hk : k - 2 + 2 = k := by omega
    rw [hk]
  simp only [keydownHandlerModel, if_neg h1, if_neg h2, if_pos hcode, if_pos hchar, hrepl,
    hsel]
  refine ⟨?_, ?_, ?_, ?_⟩ <;> trivial

theorem c3_witness :
    charBefore c3wel = [c3opts.separator] ∧
      subIndex c3wel.value (twoBefore c3wel) = some 0 ∧
      (keydownHandlerModel c3opts c3wel bsEv).prevented = true ∧
      (keydownHandlerModel c3opts c3wel bsEv).value = "234".data ∧
      (keydownHandlerModel c3opts c3wel bsEv).inputEvent = true ∧
      (keydownHandlerModel c3opts c3wel bsEv).cursor =
        some (floorPos c3opts (c3wel.value.length - 2)
          ((c3wel.value.take 0 ++ c3wel.value.drop 2).length)) := by
  have h := c3_backspace_over_separator c3opts c3wel bsEv 2 rfl (by decide) rfl
    (by decide) (by decide) (by decide) (by decide)
  exact ⟨by decide, by decide, h.1, h.2.1, h.2.2.1, h.2.2.2⟩

/-- C3 counterexample: in 1,231,234 with the cursor directly after the
second separator, the two-character slice before the cursor also occurs at
the start of the string, so the handler deletes that first occurrence —
producing 231,234 — instead of deleting the separator and digit at the
cursor (which would give 1,23234), refuting the claim that the pair at the
cursor is the one removed. -/
theorem c3_counterexample :
    charBefore c3el = [c3opts.separator] ∧
      (keydownHandlerModel c3opts c3el bsEv).prevented = true ∧
      (keydownHandlerModel c3opts c3el bsEv).value = "231,234".data ∧
      (keydownHandlerModel c3opts c3el bsEv).value ≠
        c3el.value.take 4 ++ c3el.value.drop 6 := by
  refine ⟨by decide, ?_, ?_, ?_⟩ <;> decide

/-- C6 (amended): when the newly computed masked value equals the stored
`oldValue`, the input handler fires no notification and leaves `oldValue`
unchanged (though the `masked` and `unmaskedValue` fields are still
rewritten when the raw value differs from `oldValue`); because an accepted
edit sets `oldValue` to the pre-edit masked value rather than the new one,
a repeated identical edit is not suppressed. -/
theorem c6_noop_when_new_masked_equals_old (opts : Options) (el : FieldEl)
    (hmask : (updateValueModel opts el false false false).1.value = el.oldValue) :
    (inputHandlerModel opts el false).notified = false ∧
      (inputHandlerModel opts el false).el.oldValue = el.oldValue := by
  have hne : ¬(el.oldValue ≠ (updateValueModel opts el false false false).1.value) :=
    not_not_intro hmask.symm
  simp only [inputHandlerModel]
  rw [if_neg (by simp), if_neg hne]
  exact ⟨rfl, updateValueModel_oldValue opts el false false false⟩

theorem c6_witness :
    (updateValueModel c6opts c6wel false false false).1.value = c6wel.oldValue ∧
      (inputHandlerModel c6opts c6wel false).notified = false ∧
      (inputHandlerModel c6opts c6wel false).el.oldValue = c6wel.oldValue :=
  ⟨by decide, c6_noop_when_new_masked_equals_old c6opts c6wel (by decide)⟩

/-- C6 counterexample: invoking the input handler twice with identical
resulting masked text fires a notification both times: after the first
accepted edit `oldValue` holds the pre-edit masked value, so the second,
visually identical run still sees a difference and notifies again —
refuting the no-second-notification part of the claim. -/
theorem c6_counterexample :
    (inputHandlerModel c6opts c6el false).el.masked =
      (inputHandlerModel c6opts (inputHandlerModel c6opts c6el false).el false).el.masked ∧
      (inputHandlerModel c6opts c6el false).notified = true ∧
      (inputHandlerModel c6opts (inputHandlerModel c6opts c6el false).el false).notified = true := by
  refine ⟨?_, ?_, ?_⟩ <;> decide

/-- C7 (amended): for every accepted edit (the captured `oldValue` differs
from the newly computed value), the input handler and the blur handler set
the stored `oldValue` to the `masked` value captured before recomputation —
the previous masked value, not the newly computed one — and then dispatch
the notification. -/
theorem c7_oldvalue_set_to_captured_masked (opts : Options) (el : FieldEl) :
    (el.oldValue ≠ (updateValueModel opts el false false false).1.value →
      (inputHandlerModel opts el false).el.oldValue = el.masked ∧
        (inputHandlerModel opts el false).notified = true) ∧
      (el.oldValue ≠ (updateValueModel opts el true true true).1.value →
        (blurHandlerModel opts el false).el.oldValue = el.masked ∧
          (blurHandlerModel opts el false).facadeChange = true) := by
  constructor <;> intro hne
  · simp only [inputHandlerModel]
    rw [if_neg (by simp), if_pos hne]
    exact ⟨rfl, rfl⟩
  · simp only [blurHandlerModel]
    rw [if_neg (by simp), if_pos hne]
    exact ⟨rfl, rfl⟩

theorem c7_witness :
    c7el.oldValue ≠ (updateValueModel c7opts c7el false false false).1.value ∧
      (inputHandlerModel c7opts c7el false).el.oldValue = c7el.masked ∧
      (inputHandlerModel c7opts c7el false).notified = true :=
  ⟨by decide, (c7_oldvalue_set_to_captured_masked c7opts c7el).1 (by decide)⟩

/-- C7 counterexample: an accepted edit whose new masked value is 12 leaves
`oldValue` at the pre-edit masked value 1, not at the newly computed masked
value — refuting the claim that `oldValue` is updated to the new masked
value. -/
theorem c7_counterexample :
    (inputHandlerModel c7opts c7el false).notified = true ∧
      (inputHandlerModel c7opts c7el false).el.masked = "12".data ∧
      (inputHandlerModel c7opts c7el false).el.oldValue = "1".data ∧
      (inputHandlerModel c7opts c7el false).el.oldValue ≠
        (inputHandlerModel c7opts c7el false).el.masked := by
  refine ⟨?_, ?_, ?_, ?_⟩ <;> decide

/-- C8 (amended): the recomputed caret position is floored against the
suffix from the end and, when the prefix is nonempty, against the prefix
from the start: whenever the new masked string is long enough to contain
both affixes, the final position is at most its length minus the suffix
length, and at least the prefix length provided the prefix is nonempty;
with an empty prefix no lower flooring occurs and the position can be
negative. -/
theorem c8_cursor_bounds (opts : Options) (el : FieldEl)
    (hlen : opts.pre.length + opts.suf.length ≤
      (updateValueModel opts el false false false).1.value.length) :
    ∃ p, (inputHandlerModel opts el false).cursor = some p ∧
      p ≤ ((updateValueModel opts el false false false).1.value.length : Int) -
        (opts.suf.length : Int) ∧
      (opts.pre ≠ [] → (opts.pre.length : Int) ≤ p) := by
  refine ⟨_, inputHandlerModel_cursor opts el, ?_, ?_⟩
  · exact (floorPos_bounds opts (pfeOf el) _ hlen).1
  · exact (floorPos_bounds opts (pfeOf el) _ hlen).2

theorem c8_witness :
    c8wopts.pre.length + c8wopts.suf.length ≤
        (updateValueModel c8wopts c8wel false false false).1.value.length ∧
      ∃ p, (inputHandlerModel c8wopts c8wel false).cursor = some p ∧
        p ≤ ((updateValueModel c8wopts c8wel false false false).1.value.length : Int) -
          (c8wopts.suf.length : Int) ∧
        (c8wopts.pre ≠ [] → (c8wopts.pre.length : Int) ≤ p) :=
  ⟨by decide, c8_cursor_bounds c8wopts c8wel (by decide)⟩

/-- C8 counterexample: with an empty prefix, a long raw value and a cursor
reported at the start, the recomputed caret position is negative (-5) even
though the new masked string contains both affixes — refuting the claimed
lower bound `prefix.length ≤ p` in the empty-prefix case. -/
theorem c8_counterexample :
    (inputHandlerModel c8opts c8el false).cursor = some (-5) ∧
      c8opts.pre.length + c8opts.suf.length ≤
        (inputHandlerModel c8opts c8el false).el.value.length ∧
      (-5 : Int) < (c8opts.pre.length : Int) := by
  refine ⟨?_, ?_, ?_⟩ <;> decide

/-! Digit and decimal-expansion lemmas. -/

theorem charDigit_digitChar (d : Nat) (h : d < 10) : charDigit (digitChar d) = d := by
  interval_cases d <;> decide

theorem digitChar_isDigit (d : Nat) (h : d < 10) : (digitChar d).isDigit = true := by
  interval_cases d <;> decide

theorem isDigit_ne (a b : Char) (ha : a.isDigit = true) (hb : ¬ b.isDigit = true) : a ≠ b :=
  fun h => hb (h ▸ ha)

theorem digitChar_ne_minus (d : Nat) (h : d < 10) : digitChar d ≠ '-' :=
  isDigit_ne _ _ (digitChar_isDigit d h) (by decide)

theorem digitChar_ne_dot (d : Nat) (h : d < 10) : digitChar d ≠ '.' :=
  isDigit_ne _ _ (digitChar_isDigit d h) (by decide)

theorem digitsToNat_append_last (ds : List Nat) (d : Nat) :
    digitsToNat (ds ++ [d]) = 10 * digitsToNat ds + d := by
  simp [digitsToNat, List.foldl_append]

theorem natDigitsAux_sound : ∀ fuel n, n ≤ fuel → digitsToNat (natDigitsAux fuel n) = n := by
  intro fuel
  induction fuel with
  | zero =>
    intro n h
    interval_cases n
    rfl
  | succ f ih =>
    intro n h
    by_cases h0 : n = 0
    · subst h0; rfl
    · rw [natDigitsAux, if_neg h0, digitsToNat_append_last, ih (n / 10) (by omega)]
      omega

theorem digitsToNat_natDigits (n : Nat) : digitsToNat (natDigits n) = n := by
  by_cases h : n = 0
  · subst h; rfl
  · rw [natDigits, if_neg h]
    exact natDigitsAux_sound (n + 1) n (by omega)

theorem natDigitsAux_lt10 : ∀ fuel n d, d ∈ natDigitsAux fuel n → d < 10 := by
  intro fuel
  induction fuel with
  | zero => intro n d hd; simp [natDigitsAux] at hd
  | succ f ih =>
    intro n d hd
    rw [natDigitsAux] at hd
    by_cases h0 : n = 0
    · rw [if_pos h0] at hd; simp at hd
    · rw [if_neg h0] at hd
      rcases List.mem_append.mp hd with h | h
      · exact ih _ _ h
      · simp at h; omega

theorem natDigits_lt10 (n : Nat) : ∀ d ∈ natDigits n, d < 10 := by
  intro d hd
  by_cases h : n = 0
  · subst h; simp [natDigits] at hd; omega
  · rw [natDigits, if_neg h] at hd
    exact natDigitsAux_lt10 _ _ _ hd

theorem natDigits_ne_nil (n : Nat) : natDigits n ≠ [] := by
  by_cases h : n = 0
  · subst h; simp [natDigits]
  · rw [natDigits, if_neg h, natDigitsAux, if_neg h]
    simp

/-! Helper lemmas for character-list scanning. -/

theorem mapIdOn {α : Type} (l : List α) (f : α → α) (h : ∀ c ∈ l, f c = c) : l.map f = l := by
  induction l with
  | nil => rfl
  | cons c cs ih =>
    rw [List.map_cons, h c (by simp), ih (fun x hx => h x (by simp [hx]))]

theorem takeWhile_all (l : Str) (p : Char → Bool) (h : ∀ c ∈ l, p c = true) :
    l.takeWhile p = l := by
  induction l with
  | nil => rfl
  | cons c cs ih =>
    rw [List.takeWhile_cons, h c (by simp), ih (fun x hx => h x (by simp [hx]))]
    simp

theorem dropWhile_all (l : Str) (p : Char → Bool) (h : ∀ c ∈ l, p c = true) :
    l.dropWhile p = [] := by
  induction l with
  | nil => rfl
  | cons c cs ih =>
    rw [List.dropWhile_cons, h c (by simp)]
    exact ih (fun x hx => h x (by simp [hx]))

theorem isPrefixOf_self_append (p r : Str) : p.isPrefixOf (p ++ r) = true := by
  induction p with
  | nil =>
    rw [List.nil_append]
    cases r <;> rfl
  | cons c cs ih =>
    rw [List.cons_append, List.isPrefixOf]
    simp only [beq_self_eq_true, Bool.true_and]
    exact ih

theorem isPrefixOf_false_of_head_ne (p s : Str) (c0 : Char) (cs : Str)
    (hp : p ≠ []) (hs : s = c0 :: cs) (hne : ∀ c ∈ p, c ≠ c0) :
    p.isPrefixOf s = false := by
  cases p with
  | nil => exact absurd rfl hp
  | cons q qs =>
    subst hs
    have hq : q ≠ c0 := hne q (by simp)
    simp [List.isPrefixOf, hq]

/-! Round trip of integer bounds through the modelled formatter. -/

theorem intToStr_ne_nil (m : Int) : intToStr m ≠ [] := by
  rw [intToStr]
  intro h
  rcases List.append_eq_nil.mp h with ⟨-, h2⟩
  exact natDigits_ne_nil m.natAbs (List.map_eq_nil_iff.mp h2)

theorem intToStr_head (m : Int) :
    ∃ c0 cs, intToStr m = c0 :: cs ∧ (c0 = '-' ∨ c0.isDigit = true) := by
  rw [intToStr]
  by_cases hm : m < 0
  · rw [if_pos hm]
    exact ⟨'-', _, rfl, Or.inl rfl⟩
  · rw [if_neg hm, List.nil_append]
    obtain ⟨d, ds, hds⟩ := List.exists_cons_of_ne_nil (natDigits_ne_nil m.natAbs)
    refine ⟨digitChar d, ds.map digitChar, by rw [hds]; rfl, Or.inr ?_⟩
    exact digitChar_isDigit d (natDigits_lt10 m.natAbs d (by rw [hds]; simp))

theorem intToStr_last (m : Int) :
    ∃ c0 cs, (intToStr m).reverse = c0 :: cs ∧ c0.isDigit = true := by
  rw [intToStr, List.reverse_append]
  have hne : ((natDigits m.natAbs).map digitChar).reverse ≠ [] := by
    simp [natDigits_ne_nil m.natAbs]
  obtain ⟨c0, cs, hcs⟩ := List.exists_cons_of_ne_nil hne
  refine ⟨c0, _, by rw [hcs]; rfl, ?_⟩
  have hc0 : c0 ∈ ((natDigits m.natAbs).map digitChar).reverse := by rw [hcs]; simp
  rw [List.mem_reverse] at hc0
  obtain ⟨d, hd, hdc⟩ := List.mem_map.mp hc0
  rw [← hdc]
  exact digitChar_isDigit d (natDigits_lt10 m.natAbs d hd)

theorem intToStr_mem (m : Int) : ∀ c ∈ intToStr m, c = '-' ∨ c.isDigit = true := by
  intro c hc
  rw [intToStr] at hc
  rcases List.mem_append.mp hc with h | h
  · left
    split at h <;> simp_all
  · right
    obtain ⟨d, hd, hdc⟩ := List.mem_map.mp h
    rw [← hdc]
    exact digitChar_isDigit d (natDigits_lt10 m.natAbs d hd)

theorem unformat_intToStr (opts : Options) (m : Int)
    (hpre : ∀ c ∈ opts.pre, ¬ c.isDigit = true ∧ c ≠ '-')
    (hsuf : ∀ c ∈ opts.suf, ¬ c.isDigit = true ∧ c ≠ '-')
    (hd1 : ¬ opts.decimal.isDigit = true) (hd2 : opts.decimal ≠ '-') :
    nfUnformat opts (!opts.reverseFill) (intToStr m) = intToStr m := by
  have hstep1 : (if opts.pre.isPrefixOf (intToStr m) then
      (intToStr m).drop opts.pre.length else intToStr m) = intToStr m := by
    by_cases hp : opts.pre = []
    · rw [hp]; simp [List.isPrefixOf]
    · obtain ⟨c0, cs, hs, hc0⟩ := intToStr_head m
      have : opts.pre.isPrefixOf (intToStr m) = false := by
        refine isPrefixOf_false_of_head_ne _ _ c0 cs hp hs ?_
        intro c hc he
        rcases hc0 with h | h
        · exact (hpre c hc).2 (he.trans h)
        · exact (hpre c hc).1 (he ▸ h)
      simp [this]
  have hstep2 : (if opts.suf.isSuffixOf (intToStr m) then
      (intToStr m).take ((intToStr m).length - opts.suf.length) else intToStr m) = intToStr m := by
    by_cases hp : opts.suf = []
    · rw [hp]; simp [List.isSuffixOf, List.isPrefixOf]
    · obtain ⟨c0, cs, hs, hc0⟩ := intToStr_last m
      have : opts.suf.isSuffixOf (intToStr m) = false := by
        rw [List.isSuffixOf]
        refine isPrefixOf_false_of_head_ne _ _ c0 cs (by simp [hp]) hs ?_
        intro c hc he
        rw [List.mem_reverse] at hc
        exact (hsuf c hc).1 (he ▸ hc0)
      simp [this]
  have hkeep : ∀ c ∈ intToStr m, keepChar opts c = true := by
    intro c hc
    rcases intToStr_mem m c hc with h | h <;> simp [keepChar, h]
  have hmap : ∀ c ∈ intToStr m, (if c == opts.decimal then '.' else c) = c := by
    intro c hc
    have : c ≠ opts.decimal := by
      rcases intToStr_mem m c hc with h | h
      · rw [h]; exact fun he => hd2 he.symm
      · exact isDigit_ne c opts.decimal h hd1
    simp [this]
  have hdig : (intToStr m).any Char.isDigit = true := by
    obtain ⟨c0, cs, hs, hc0⟩ := intToStr_last m
    refine List.any_eq_true.mpr ⟨c0, ?_, hc0⟩
    have : c0 ∈ (intToStr m).reverse := by rw [hs]; simp
    rwa [List.mem_reverse] at this
  have hnc : ¬((!opts.reverseFill) = true ∧ opts.reverseFill = true ∧
      (!((intToStr m).contains '.')) = true) := by
    rintro ⟨h1, h2, -⟩
    rw [h2] at h1
    simp at h1
  rw [nfUnformat]
  simp only [hstep1, hstep2, List.filter_eq_self.mpr hkeep, mapIdOn _ _ hmap]
  rw [if_pos hdig, if_neg hnc]

theorem parseNumeric_unsigned_digits (ds : List Nat)
    (hds : ∀ d ∈ ds, d < 10) (hne : ds ≠ []) :
    parseNumeric (ds.map digitChar) = some ⟨false, ds, []⟩ := by
  have hdot : ∀ c ∈ ds.map digitChar, (!(c == '.')) = true := by
    intro c hc
    obtain ⟨d, hd, hdc⟩ := List.mem_map.mp hc
    simp [← hdc, digitChar_ne_dot d (hds d hd)]
  have hdigs : (ds.map digitChar).all Char.isDigit = true := by
    refine List.all_eq_true.mpr ?_
    intro c hc
    obtain ⟨d, hd, hdc⟩ := List.mem_map.mp hc
    exact hdc ▸ digitChar_isDigit d (hds d hd)
  have hmapid : (ds.map digitChar).map charDigit = ds := by
    rw [List.map_map]
    exact mapIdOn ds _ (fun d hd => by simp [charDigit_digitChar d (hds d hd)])
  have htake := takeWhile_all (ds.map digitChar) _ hdot
  have hdrop := dropWhile_all (ds.map digitChar) _ hdot
  obtain ⟨d, rest, rfl⟩ := List.exists_cons_of_ne_nil hne
  have hd0 : d < 10 := hds d (by simp)
  have h1 : (((d :: rest).map digitChar).head? == some '-') = false := by
    rw [List.map_cons, List.head?_cons]
    exact beq_eq_false_iff_ne.mpr (fun h => digitChar_ne_minus d hd0 (Option.some.inj h))
  simp only [parseNumeric, h1, Bool.false_eq_true, if_false, htake, hdrop, hdigs,
    List.all_nil, Bool.and_true, Bool.true_and, List.tail_nil]
  simp [hmapid]
  exact ⟨charDigit_digitChar d hd0,
    mapIdOn rest _ (fun x hx => by simp [charDigit_digitChar x (hds x (by simp [hx]))])⟩

theorem parseNumeric_signed_digits (ds : List Nat)
    (hds : ∀ d ∈ ds, d < 10) (hne : ds ≠ []) :
    parseNumeric ('-' :: ds.map digitChar) = some ⟨true, ds, []⟩ := by
  have hdot : ∀ c ∈ ds.map digitChar, (!(c == '.')) = true := by
    intro c hc
    obtain ⟨d, hd, hdc⟩ := List.mem_map.mp hc
    simp [← hdc, digitChar_ne_dot d (hds d hd)]
  have hdigs : (ds.map digitChar).all Char.isDigit = true := by
    refine List.all_eq_true.mpr ?_
    intro c hc
    obtain ⟨d, hd, hdc⟩ := List.mem_map.mp hc
    exact hdc ▸ digitChar_isDigit d (hds d hd)
  have hmapid : (ds.map digitChar).map charDigit = ds := by
    rw [List.map_map]
    exact mapIdOn ds _ (fun d hd => by simp [charDigit_digitChar d (hds d hd)])
  have htake := takeWhile_all (ds.map digitChar) _ hdot
  have hdrop := dropWhile_all (ds.map digitChar) _ hdot
  have hne2 : (ds.map digitChar).isEmpty = false := by
    rw [List.isEmpty_eq_false_iff_exists_mem]
    obtain ⟨d, rest, rfl⟩ := List.exists_cons_of_ne_nil hne
    exact ⟨digitChar d, by simp⟩
  simp only [parseNumeric, List.head?_cons, beq_self_eq_true, if_true, List.tail_cons,
    htake, hdrop, hdigs, List.all_nil, Bool.and_true, List.tail_nil, hne2,
    Bool.not_false, Bool.true_and]
  simp [hmapid]

theorem ratOfParts_int (neg : Bool) (ds : List Nat) :
    ratOfParts ⟨neg, ds, []⟩ =
      if neg = true then -(digitsToNat ds : ℚ) else (digitsToNat ds : ℚ) := by
  simp [ratOfParts, digitsToNat]

theorem jsNumber_intToStr (m : Int) : jsNumber (intToStr m) = some ((m : ℚ)) := by
  rw [jsNumber, if_neg (intToStr_ne_nil m)]
  by_cases hm : m < 0
  · rw [intToStr, if_pos hm, List.singleton_append,
      parseNumeric_signed_digits _ (natDigits_lt10 _) (natDigits_ne_nil _)]
    have hm' : ((m : ℚ)) < 0 := by exact_mod_cast hm
    simp [ratOfParts_int, digitsToNat_natDigits, Int.cast_natAbs, abs_of_neg hm']
  · rw [intToStr, if_neg hm, List.nil_append,
      parseNumeric_unsigned_digits _ (natDigits_lt10 _) (natDigits_ne_nil _)]
    have hm' : 0 ≤ ((m : ℚ)) := by
      have : 0 ≤ m := by omega
      exact_mod_cast this
    simp [ratOfParts_int, digitsToNat_natDigits, Int.cast_natAbs, abs_of_nonneg hm']

theorem blurHandlerModel_masked (opts : Options) (el : FieldEl) :
    (blurHandlerModel opts el false).el.masked =
      (updateValueModel opts el true true true).1.masked := by
  simp only [blurHandlerModel]
  rw [if_neg (by simp)]
  split <;> rfl

theorem blurHandlerModel_unmasked (opts : Options) (el : FieldEl) :
    (blurHandlerModel opts el false).el.unmaskedValue =
      (updateValueModel opts el true true true).1.unmaskedValue := by
  simp only [blurHandlerModel]
  rw [if_neg (by simp)]
  split <;> rfl

theorem updateValueModel_clamped_max (opts : Options) (el : FieldEl) (q : ℚ)
    (hq : jsNumber (nfUnformat opts (!opts.reverseFill) el.value) = some q)
    (hmax : opts.max ≠ 0) (hgt : (opts.max : ℚ) < q) :
    (updateValueModel opts el true true true).1.masked = nfFormat opts (intToStr opts.max) ∧
      (updateValueModel opts el true true true).1.unmaskedValue =
        nfUnformat opts (!opts.reverseFill) (intToStr opts.max) := by
  have hcond : opts.max ≠ 0 ∧
      numGT (jsNumber (nfUnformat opts (!opts.reverseFill) el.value)) opts.max = true := by
    refine ⟨hmax, ?_⟩
    rw [hq]
    simp [numGT, hgt]
  simp only [updateValueModel, true_or, if_true]
  rw [if_pos hcond]
  exact ⟨rfl, rfl⟩

theorem updateValueModel_clamped_min (opts : Options) (el : FieldEl) (q : ℚ)
    (hq : jsNumber (nfUnformat opts (!opts.reverseFill) el.value) = some q)
    (hnotmax : ¬(opts.max ≠ 0 ∧ (opts.max : ℚ) < q))
    (hmin : opts.min ≠ 0) (hlt : q < (opts.min : ℚ)) :
    (updateValueModel opts el true true true).1.masked = nfFormat opts (intToStr opts.min) ∧
      (updateValueModel opts el true true true).1.unmaskedValue =
        nfUnformat opts (!opts.reverseFill) (intToStr opts.min) := by
  have hcond1 : ¬(opts.max ≠ 0 ∧
      numGT (jsNumber (nfUnformat opts (!opts.reverseFill) el.value)) opts.max = true) := by
    rintro ⟨h1, h2⟩
    rw [hq] at h2
    exact hnotmax ⟨h1, by simpa [numGT] using h2⟩
  have hcond2 : opts.min ≠ 0 ∧
      numLT (jsNumber (nfUnformat opts (!opts.reverseFill) el.value)) opts.min = true := by
    refine ⟨hmin, ?_⟩
    rw [hq]
    simp [numLT, hlt]
  simp only [updateValueModel, true_or, if_true]
  rw [if_neg hcond1, if_pos hcond2]
  exact ⟨rfl, rfl⟩

/-- C1 (amended): on blur the recomputation clamps only against truthy
(nonzero) bounds: when `max` is nonzero and the parsed numeric value of the
unmasked string exceeds it, the masked display becomes the formatted `max`
and the unmasked value parses to exactly `max`; symmetrically for a nonzero
`min` when the value is below it (the comparisons are numeric, via
`Number`); a zero bound is falsy in the source and performs no clamping. -/
theorem c1_blur_clamps_truthy_bounds (opts : Options) (el : FieldEl)
    (hpre : ∀ c ∈ opts.pre, ¬ c.isDigit = true ∧ c ≠ '-')
    (hsuf : ∀ c ∈ opts.suf, ¬ c.isDigit = true ∧ c ≠ '-')
    (hd1 : ¬ opts.decimal.isDigit = true) (hd2 : opts.decimal ≠ '-') :
    (∀ q : ℚ, jsNumber (nfUnformat opts (!opts.reverseFill) el.value) = some q →
      opts.max ≠ 0 → (opts.max : ℚ) < q →
        (blurHandlerModel opts el false).el.masked = nfFormat opts (intToStr opts.max) ∧
          jsNumber ((blurHandlerModel opts el false).el.unmaskedValue) =
            some ((opts.max : ℚ))) ∧
      (∀ q : ℚ, jsNumber (nfUnformat opts (!opts.reverseFill) el.value) = some q →
        ¬(opts.max ≠ 0 ∧ (opts.max : ℚ) < q) → opts.min ≠ 0 → q < (opts.min : ℚ) →
          (blurHandlerModel opts el false).el.masked = nfFormat opts (intToStr opts.min) ∧
            jsNumber ((blurHandlerModel opts el false).el.unmaskedValue) =
              some ((opts.min : ℚ))) := by
  constructor
  · intro q hq hmax hgt
    obtain ⟨h1, h2⟩ := updateValueModel_clamped_max opts el q hq hmax hgt
    refine ⟨(blurHandlerModel_masked opts el).trans h1, ?_⟩
    rw [blurHandlerModel_unmasked opts el, h2,
      unformat_intToStr opts opts.max hpre hsuf hd1 hd2, jsNumber_intToStr]
  · intro q hq hnotmax hmin hlt
    obtain ⟨h1, h2⟩ := updateValueModel_clamped_min opts el q hq hnotmax hmin hlt
    refine ⟨(blurHandlerModel_masked opts el).trans h1, ?_⟩
    rw [blurHandlerModel_unmasked opts el, h2,
      unformat_intToStr opts opts.min hpre hsuf hd1 hd2, jsNumber_intToStr]

theorem numGT_some (q : ℚ) (b : Int) : numGT (some q) b = true ↔ (b : ℚ) < q := by
  simp [numGT]

theorem numLT_some (q : ℚ) (b : Int) : numLT (some q) b = true ↔ q < (b : ℚ) := by
  simp [numLT]

theorem updateValueModel_no_clamp (opts : Options) (el : FieldEl)
    (h1 : ¬(opts.max ≠ 0 ∧
      numGT (jsNumber (nfUnformat opts (!opts.reverseFill) el.value)) opts.max = true))
    (h2 : ¬(opts.min ≠ 0 ∧
      numLT (jsNumber (nfUnformat opts (!opts.reverseFill) el.value)) opts.min = true)) :
    (updateValueModel opts el true true true).1.masked = nfFormat opts el.value ∧
      (updateValueModel opts el true true true).1.unmaskedValue =
        nfUnformat opts (!opts.reverseFill) el.value := by
  simp only [updateValueModel, true_or, if_true]
  rw [if_neg h1, if_neg h2]
  exact ⟨rfl, rfl⟩

theorem c1_witness :
    jsNumber (nfUnformat c1opts (!c1opts.reverseFill) c1wel.value) = some (((150 : ℤ) : ℚ)) ∧
      (c1opts.max : ℚ) < (((150 : ℤ) : ℚ)) ∧
      (blurHandlerModel c1opts c1wel false).el.masked = nfFormat c1opts (intToStr c1opts.max) ∧
      jsNumber ((blurHandlerModel c1opts c1wel false).el.unmaskedValue) =
        some ((c1opts.max : ℚ)) ∧
      nfFormat c1opts (intToStr c1opts.max) = "100".data := by
  have hu : nfUnformat c1opts (!c1opts.reverseFill) c1wel.value = intToStr 150 := by decide
  have hjs : jsNumber (nfUnformat c1opts (!c1opts.reverseFill) c1wel.value) =
      some (((150 : ℤ) : ℚ)) := by
    rw [hu, jsNumber_intToStr]
  have hgt : (c1opts.max : ℚ) < (((150 : ℤ) : ℚ)) := by
    have h100 : c1opts.max = 100 := rfl
    rw [h100]
    exact_mod_cast (by norm_num : (100 : ℤ) < 150)
  have happ := (c1_blur_clamps_truthy_bounds c1opts c1wel (by decide) (by decide) (by decide)
    (by decide)).1 ((150 : ℤ) : ℚ) hjs (by decide) hgt
  exact ⟨hjs, hgt, happ.1, happ.2, by decide⟩

/-- C1 counterexample: with `min = 0` (a falsy bound) and displayed value
-5, the parsed value -5 is below `min`, yet blur leaves the masked display
and the unmasked value at -5 instead of clamping them to the bound —
refuting the claim that clamping applies for every numeric bound including
zero. -/
theorem c1_counterexample :
    c1opts.min = 0 ∧
      jsNumber (nfUnformat c1opts (!c1opts.reverseFill) c1el.value) = some (((-5 : ℤ) : ℚ)) ∧
      (((-5 : ℤ) : ℚ)) < ((c1opts.min : ℚ)) ∧
      (blurHandlerModel c1opts c1el false).el.masked = "-5".data ∧
      (blurHandlerModel c1opts c1el false).el.unmaskedValue = "-5".data ∧
      jsNumber ((blurHandlerModel c1opts c1el false).el.unmaskedValue) ≠
        some ((c1opts.min : ℚ)) := by
  have hu : nfUnformat c1opts (!c1opts.reverseFill) c1el.value = intToStr (-5) := by decide
  have hjs : jsNumber (nfUnformat c1opts (!c1opts.reverseFill) c1el.value) =
      some (((-5 : ℤ) : ℚ)) := by
    rw [hu, jsNumber_intToStr]
  have h1 : ¬(c1opts.max ≠ 0 ∧
      numGT (jsNumber (nfUnformat c1opts (!c1opts.reverseFill) c1el.value)) c1opts.max = true) := by
    rintro ⟨-, h⟩
    rw [hjs, numGT_some] at h
    have h100 : c1opts.max = 100 := rfl
    rw [h100] at h
    have : ((100 : ℤ) : ℚ) < ((-5 : ℤ) : ℚ) := h
    norm_num at this
  have h2 : ¬(c1opts.min ≠ 0 ∧
      numLT (jsNumber (nfUnformat c1opts (!c1opts.reverseFill) c1el.value)) c1opts.min = true) := by
    rintro ⟨h, -⟩
    exact h rfl
  obtain ⟨hm, hum⟩ := updateValueModel_no_clamp c1opts c1el h1 h2
  have hmasked : (blurHandlerModel c1opts c1el false).el.masked = "-5".data := by
    rw [blurHandlerModel_masked, hm]
    decide
  have hunmasked : (blurHandlerModel c1opts c1el false).el.unmaskedValue = "-5".data := by
    rw [blurHandlerModel_unmasked, hum]
    decide
  refine ⟨rfl, hjs, ?_, hmasked, hunmasked, ?_⟩
  · have h0 : c1opts.min = 0 := rfl
    rw [h0]
    exact_mod_cast (by norm_num : (-5 : ℤ) < 0)
  · rw [hunmasked]
    have hid : ("-5".data : Str) = intToStr (-5) := by decide
    rw [hid, jsNumber_intToStr]
    intro h
    have h0 : c1opts.min = 0 := rfl
    rw [h0] at h
    have h2 := Option.some.inj h
    have : (-5 : ℤ) = 0 := by exact_mod_cast h2
    omega

/-! Structural lemmas for the modelled formatter, leading to idempotence. -/

theorem charDigit_lt10 (c : Char) (h : c.isDigit = true) : charDigit c < 10 := by
  simp only [Char.isDigit, Bool.and_eq_true, decide_eq_true_eq] at h
  obtain ⟨h1, h2⟩ := h
  have h3 : c.val.toNat ≤ 57 := by
    rw [UInt32.le_def] at h2
    exact h2
  simp only [charDigit, Char.toNat]
  omega

theorem takeWhile_append_all (xs ys : Str) (p : Char → Bool) (h : ∀ c ∈ xs, p c = true) :
    (xs ++ ys).takeWhile p = xs ++ ys.takeWhile p := by
  induction xs with
  | nil => simp
  | cons c cs ih =>
    rw [List.cons_append, List.takeWhile_cons, h c (by simp)]
    simp [ih (fun x hx => h x (by simp [hx]))]

theorem dropWhile_append_all (xs ys : Str) (p : Char → Bool) (h : ∀ c ∈ xs, p c = true) :
    (xs ++ ys).dropWhile p = ys.dropWhile p := by
  induction xs with
  | nil => simp
  | cons c cs ih =>
    rw [List.cons_append, List.dropWhile_cons, h c (by simp)]
    simp [ih (fun x hx => h x (by simp [hx]))]

theorem incLE_lt10 (ds : List Nat) (h : ∀ d ∈ ds, d < 10) : ∀ d ∈ incLE ds, d < 10 := by
  induction ds with
  | nil => intro d hd; simp [incLE] at hd; omega
  | cons d rest ih =>
    intro x hx
    rw [incLE] at hx
    split_ifs at hx with h9
    · rcases List.mem_cons.mp hx with hmem | hmem
      · omega
      · exact ih (fun y hy => h y (by simp [hy])) x hmem
    · rcases List.mem_cons.mp hx with hmem | hmem
      · have hd10 := h d (by simp)
        omega
      · exact h x (by simp [hmem])

theorem succDigits_lt10 (ds : List Nat) (h : ∀ d ∈ ds, d < 10) :
    ∀ d ∈ succDigits ds, d < 10 := by
  intro d hd
  rw [succDigits, List.mem_reverse] at hd
  exact incLE_lt10 ds.reverse (fun x hx => h x (List.mem_reverse.mp hx)) d hd

theorem roundTo_len (p : Nat) (ip fp : List Nat) : (roundTo p ip fp).2.length ≤ p := by
  simp only [roundTo]
  split_ifs with h1 h2
  · exact h1
  · simp
    omega
  · simp

theorem roundTo_lt10 (p : Nat) (ip fp : List Nat)
    (hi : ∀ d ∈ ip, d < 10) (hf : ∀ d ∈ fp, d < 10) :
    (∀ d ∈ (roundTo p ip fp).1, d < 10) ∧ (∀ d ∈ (roundTo p ip fp).2, d < 10) := by
  simp only [roundTo]
  split_ifs with h1 h2
  · exact ⟨hi, hf⟩
  · have hall : ∀ d ∈ succDigits (ip ++ fp.take p), d < 10 := by
      refine succDigits_lt10 _ ?_
      intro d hd
      rcases List.mem_append.mp hd with hm | hm
      · exact hi d hm
      · exact hf d (List.take_subset _ _ hm)
    exact ⟨fun d hd => hall d (List.take_subset _ _ hd),
      fun d hd => hall d (List.drop_subset _ _ hd)⟩
  · exact ⟨hi, fun d hd => hf d (List.take_subset _ _ hd)⟩

theorem trimRev_subset (m : Nat) (l : List Nat) : ∀ x ∈ trimRev m l, x ∈ l := by
  induction l with
  | nil => intro x hx; simp [trimRev] at hx
  | cons d rest ih =>
    intro x hx
    rw [trimRev] at hx
    split_ifs at hx with hc
    · exact List.mem_cons_of_mem d (ih x hx)
    · exact hx

theorem trimRev_length_le (m : Nat) (l : List Nat) : (trimRev m l).length ≤ l.length := by
  induction l with
  | nil => simp [trimRev]
  | cons d rest ih =>
    rw [trimRev]
    split_ifs with hc
    · simp
      omega
    · simp

theorem trimRev_length_ge (m : Nat) (l : List Nat) (h : m ≤ l.length) :
    m ≤ (trimRev m l).length := by
  induction l with
  | nil => simpa [trimRev] using h
  | cons d rest ih =>
    rw [trimRev]
    split_ifs with hc
    · exact ih (by omega)
    · exact h

theorem trimRev_idem (m : Nat) (l : List Nat) : trimRev m (trimRev m l) = trimRev m l := by
  induction l with
  | nil => rfl
  | cons d rest ih =>
    rw [trimRev]
    split_ifs with hc
    · exact ih
    · rw [trimRev, if_neg hc]

theorem padTrim_length_ge (m : Nat) (f : List Nat) : m ≤ (padTrim m f).length := by
  rw [padTrim, List.length_reverse]
  apply trimRev_length_ge
  simp
  omega

theorem padTrim_length_le (m : Nat) (f : List Nat) (p : Nat)
    (hf : f.length ≤ p) (hm : m ≤ p) : (padTrim m f).length ≤ p := by
  rw [padTrim, List.length_reverse]
  have h1 := trimRev_length_le m (f ++ List.replicate (m - f.length) 0).reverse
  have h2 : (f ++ List.replicate (m - f.length) 0).reverse.length =
      f.length + (m - f.length) := by
    simp
    omega
  omega

theorem padTrim_lt10 (m : Nat) (f : List Nat) (hf : ∀ d ∈ f, d < 10) :
    ∀ d ∈ padTrim m f, d < 10 := by
  intro d hd
  rw [padTrim, List.mem_reverse] at hd
  have hsub := trimRev_subset _ _ d hd
  rw [List.mem_reverse, List.mem_append] at hsub
  rcases hsub with hm | hm
  · exact hf d hm
  · have := List.eq_of_mem_replicate hm
    omega

theorem padTrim_idem (m : Nat) (f : List Nat) : padTrim m (padTrim m f) = padTrim m f := by
  have hge := padTrim_length_ge m f
  have h0 : m - (padTrim m f).length = 0 := by omega
  conv_lhs => rw [padTrim]
  rw [h0, List.replicate_zero, List.append_nil, padTrim, List.reverse_reverse, trimRev_idem]

theorem canonicalize_lt10 (opts : Options) (n : NumParts)
    (hi : ∀ d ∈ n.intDigits, d < 10) (hf : ∀ d ∈ n.fracDigits, d < 10) :
    (∀ d ∈ (canonicalize opts n).intDigits, d < 10) ∧
      (∀ d ∈ (canonicalize opts n).fracDigits, d < 10) := by
  obtain ⟨h1, h2⟩ := roundTo_lt10 opts.precision n.intDigits n.fracDigits hi hf
  simp only [canonicalize]
  split_ifs with hc
  · refine ⟨?_, ?_⟩ <;> intro d hd
    · simp at hd; omega
    · exact padTrim_lt10 _ _ h2 d hd
  · exact ⟨h1, padTrim_lt10 _ _ h2⟩

theorem canonicalize_nonempty (opts : Options) (n : NumParts) :
    (canonicalize opts n).intDigits ≠ [] ∨ (canonicalize opts n).fracDigits ≠ [] := by
  simp only [canonicalize]
  split_ifs with hc
  · left; simp
  · rw [not_and_or] at hc
    rcases hc with h | h
    · left; exact h
    · right; exact h

theorem canonicalize_idem (opts : Options) (n : NumParts)
    (hmp : opts.minFracDigits ≤ opts.precision) :
    canonicalize opts (canonicalize opts n) = canonicalize opts n := by
  have hlen1 := roundTo_len opts.precision n.intDigits n.fracDigits
  have hf1p : (padTrim opts.minFracDigits
      (roundTo opts.precision n.intDigits n.fracDigits).2).length ≤ opts.precision :=
    padTrim_length_le _ _ _ hlen1 hmp
  by_cases hc : (roundTo opts.precision n.intDigits n.fracDigits).1 = [] ∧
      padTrim opts.minFracDigits (roundTo opts.precision n.intDigits n.fracDigits).2 = []
  · have hm0 : opts.minFracDigits = 0 := by
      have hge := padTrim_length_ge opts.minFracDigits
        (roundTo opts.precision n.intDigits n.fracDigits).2
      rw [hc.2] at hge
      simpa using hge
    have hcn : canonicalize opts n = ⟨n.neg, [0], []⟩ := by
      simp only [canonicalize]
      rw [if_pos hc, hc.2]
    rw [hcn]
    have hr0 : roundTo opts.precision ([0] : List Nat) ([] : List Nat) = ([0], []) := by
      rw [roundTo, if_pos (by simp)]
    have hp0 : padTrim opts.minFracDigits ([] : List Nat) = [] := by
      rw [hm0]
      rfl
    simp [canonicalize, hr0, hp0]
  · have hcn : canonicalize opts n =
        ⟨n.neg, (roundTo opts.precision n.intDigits n.fracDigits).1,
          padTrim opts.minFracDigits (roundTo opts.precision n.intDigits n.fracDigits).2⟩ := by
      simp only [canonicalize]
      rw [if_neg hc]
    rw [hcn]
    have hr : roundTo opts.precision (roundTo opts.precision n.intDigits n.fracDigits).1
        (padTrim opts.minFracDigits (roundTo opts.precision n.intDigits n.fracDigits).2) =
        ((roundTo opts.precision n.intDigits n.fracDigits).1,
          padTrim opts.minFracDigits (roundTo opts.precision n.intDigits n.fracDigits).2) := by
      rw [roundTo, if_pos hf1p]
    simp only [canonicalize, hr, padTrim_idem]
    rw [if_neg hc]

theorem grpRev_filter (sep : Char) (kp : Char → Bool) (hsep : kp sep = false) :
    ∀ (cs : List Char) (i : Nat), (∀ c ∈ cs, kp c = true) →
      (grpRev sep cs i).filter kp = cs := by
  intro cs
  induction cs with
  | nil => intro i h; rfl
  | cons c rest ih =>
    intro i h
    rw [grpRev]
    split_ifs with hc
    · simp [List.filter_cons, h c (by simp), hsep,
        ih (i + 1) (fun x hx => h x (by simp [hx]))]
    · simp [List.filter_cons, h c (by simp),
        ih (i + 1) (fun x hx => h x (by simp [hx]))]

theorem groupDigits_filter (sep : Char) (kp : Char → Bool) (hsep : kp sep = false)
    (ds : List Char) (hds : ∀ c ∈ ds, kp c = true) :
    (groupDigits sep ds).filter kp = ds := by
  rw [groupDigits, List.filter_reverse,
    grpRev_filter sep kp hsep ds.reverse 0 (fun c hc => hds c (List.mem_reverse.mp hc)),
    List.reverse_reverse]

theorem canonStr_ne_nil (n : NumParts) (hne : n.intDigits ≠ [] ∨ n.fracDigits ≠ []) :
    canonStr n ≠ [] := by
  intro h
  rw [canonStr] at h
  rcases List.append_eq_nil.mp h with ⟨h1, h2⟩
  rcases List.append_eq_nil.mp h2 with ⟨h3, h4⟩
  rcases hne with h5 | h5
  · exact h5 (List.map_eq_nil_iff.mp h3)
  · rw [if_neg h5] at h4
    simp at h4

theorem ite_some_eq_some {α : Type} {C : Prop} [Decidable C] {a n : α}
    (h : (if C then some a else none) = some n) : C ∧ a = n := by
  split at h
  · exact ⟨by assumption, Option.some.inj h⟩
  · exact Option.noConfusion h

theorem parseNumeric_lt10 (s : Str) (n : NumParts) (h : parseNumeric s = some n) :
    (∀ d ∈ n.intDigits, d < 10) ∧ (∀ d ∈ n.fracDigits, d < 10) := by
  simp only [parseNumeric] at h
  obtain ⟨hg, h2⟩ := ite_some_eq_some h
  subst h2
  simp only [Bool.and_eq_true, List.all_eq_true] at hg
  obtain ⟨⟨hga, hgb⟩, hgc⟩ := hg
  constructor <;> intro d hd
  · obtain ⟨c, hc, rfl⟩ := List.mem_map.mp hd
    exact charDigit_lt10 c (hga c hc)
  · obtain ⟨c, hc, rfl⟩ := List.mem_map.mp hd
    exact charDigit_lt10 c (hgb c hc)

theorem keepChar_sep (opts : Options) (hsep1 : ¬ opts.separator.isDigit = true)
    (hsep2 : opts.separator ≠ '-') (hsep3 : opts.separator ≠ opts.decimal) :
    keepChar opts opts.separator = false := by
  have h1 : opts.separator.isDigit = false := by
    cases hb : opts.separator.isDigit
    · rfl
    · exact absurd hb hsep1
  simp [keepChar, h1, beq_eq_false_iff_ne.mpr hsep2, beq_eq_false_iff_ne.mpr hsep3]

theorem keepChar_digitChar (opts : Options) (d : Nat) (h : d < 10) :
    keepChar opts (digitChar d) = true := by
  simp [keepChar, digitChar_isDigit d h]

/-- Unformatting a rendered value recovers its canonical numeric string: the
prefix and suffix are stripped structurally, the separators are dropped by
the character filter and the decimal character is normalised to a dot. -/
theorem unformat_render (opts : Options) (n : NumParts)
    (hsep1 : ¬ opts.separator.isDigit = true) (hsep2 : opts.separator ≠ '-')
    (hsep3 : opts.separator ≠ opts.decimal)
    (hd1 : ¬ opts.decimal.isDigit = true) (hd2 : opts.decimal ≠ '-')
    (hi : ∀ d ∈ n.intDigits, d < 10) (hf : ∀ d ∈ n.fracDigits, d < 10)
    (hne : n.intDigits ≠ [] ∨ n.fracDigits ≠ []) :
    nfUnformat opts false (renderNum opts n) = canonStr n := by
  have hstep1 : (if opts.pre.isPrefixOf (renderNum opts n) = true then
      (renderNum opts n).drop opts.pre.length else renderNum opts n) =
      (if n.neg then ['-'] else []) ++
        (groupDigits opts.separator (n.intDigits.map digitChar) ++
          ((if n.fracDigits = [] then []
            else opts.decimal :: n.fracDigits.map digitChar) ++ opts.suf)) := by
    rw [renderNum, if_pos (isPrefixOf_self_append _ _), List.drop_left]
  have hassoc : (if n.neg then ['-'] else []) ++
      (groupDigits opts.separator (n.intDigits.map digitChar) ++
        ((if n.fracDigits = [] then []
          else opts.decimal :: n.fracDigits.map digitChar) ++ opts.suf)) =
      ((if n.neg then ['-'] else []) ++
        (groupDigits opts.separator (n.intDigits.map digitChar) ++
          (if n.fracDigits = [] then []
            else opts.decimal :: n.fracDigits.map digitChar))) ++ opts.suf := by
    simp [List.append_assoc]
  have hsuffix : opts.suf.isSuffixOf ((if n.neg then ['-'] else []) ++
      (groupDigits opts.separator (n.intDigits.map digitChar) ++
        ((if n.fracDigits = [] then []
          else opts.decimal :: n.fracDigits.map digitChar) ++ opts.suf))) = true := by
    rw [hassoc, List.isSuffixOf, List.reverse_append]
    exact isPrefixOf_self_append _ _
  have hstep2 : (((if n.neg then ['-'] else []) ++
      (groupDigits opts.separator (n.intDigits.map digitChar) ++
        ((if n.fracDigits = [] then []
          else opts.decimal :: n.fracDigits.map digitChar) ++ opts.suf))).take
        (((if n.neg then ['-'] else []) ++
          (groupDigits opts.separator (n.intDigits.map digitChar) ++
            ((if n.fracDigits = [] then []
              else opts.decimal :: n.fracDigits.map digitChar) ++ opts.suf))).length -
          opts.suf.length)) =
      (if n.neg then ['-'] else []) ++
        (groupDigits opts.separator (n.intDigits.map digitChar) ++
          (if n.fracDigits = [] then []
            else opts.decimal :: n.fracDigits.map digitChar)) := by
    rw [hassoc]
    have hl : (((if n.neg then ['-'] else []) ++
        (groupDigits opts.separator (n.intDigits.map digitChar) ++
          (if n.fracDigits = [] then []
            else opts.decimal :: n.fracDigits.map digitChar))) ++ opts.suf).length -
        opts.suf.length =
        ((if n.neg then ['-'] else []) ++
          (groupDigits opts.separator (n.intDigits.map digitChar) ++
            (if n.fracDigits = [] then []
              else opts.decimal :: n.fracDigits.map digitChar))).length := by
      simp
      omega
    rw [hl, List.take_left]
  have hsign : ((if n.neg then ['-'] else [] : Str)).filter (keepChar opts) =
      (if n.neg then ['-'] else []) := by
    split_ifs <;> simp [List.filter_cons, keepChar]
  have hgroup : (groupDigits opts.separator (n.intDigits.map digitChar)).filter
      (keepChar opts) = n.intDigits.map digitChar := by
    refine groupDigits_filter _ _ (keepChar_sep opts hsep1 hsep2 hsep3) _ ?_
    intro c hc
    obtain ⟨d, hd, rfl⟩ := List.mem_map.mp hc
    exact keepChar_digitChar opts d (hi d hd)
  have hfracp : ((if n.fracDigits = [] then []
      else opts.decimal :: n.fracDigits.map digitChar) : Str).filter (keepChar opts) =
      (if n.fracDigits = [] then [] else opts.decimal :: n.fracDigits.map digitChar) := by
    split_ifs with hfe
    · rfl
    · refine List.filter_eq_self.mpr ?_
      intro c hc
      rcases List.mem_cons.mp hc with rfl | hc
      · simp [keepChar]
      · obtain ⟨d, hd, rfl⟩ := List.mem_map.mp hc
        exact keepChar_digitChar opts d (hf d hd)
  have hsignmap : ((if n.neg then ['-'] else [] : Str)).map
      (fun c => if c == opts.decimal then '.' else c) = (if n.neg then ['-'] else []) := by
    split_ifs
    · have hne2 : ('-' : Char) ≠ opts.decimal := fun h => hd2 h.symm
      simp [hne2]
    · rfl
  have hintmap : (n.intDigits.map digitChar).map
      (fun c => if c == opts.decimal then '.' else c) = n.intDigits.map digitChar := by
    refine mapIdOn _ _ ?_
    intro c hc
    obtain ⟨d, hd, rfl⟩ := List.mem_map.mp hc
    simp [beq_eq_false_iff_ne.mpr (isDigit_ne _ _ (digitChar_isDigit d (hi d hd)) hd1)]
  have hfracmap : ((if n.fracDigits = [] then []
      else opts.decimal :: n.fracDigits.map digitChar) : Str).map
      (fun c => if c == opts.decimal then '.' else c) =
      (if n.fracDigits = [] then [] else '.' :: n.fracDigits.map digitChar) := by
    split_ifs with hfe
    · rfl
    · rw [List.map_cons]
      simp only [beq_self_eq_true, if_true]
      congr 1
      refine mapIdOn _ _ ?_
      intro c hc
      obtain ⟨d, hd, rfl⟩ := List.mem_map.mp hc
      simp [beq_eq_false_iff_ne.mpr (isDigit_ne _ _ (digitChar_isDigit d (hf d hd)) hd1)]
  have hany : (canonStr n).any Char.isDigit = true := by
    refine List.any_eq_true.mpr ?_
    rcases hne with h5 | h5
    · obtain ⟨d, ds, hds⟩ := List.exists_cons_of_ne_nil h5
      refine ⟨digitChar d, ?_, digitChar_isDigit d (hi d (by rw [hds]; simp))⟩
      rw [canonStr]
      refine List.mem_append.mpr (Or.inr (List.mem_append.mpr (Or.inl ?_)))
      rw [hds]
      simp
    · obtain ⟨d, ds, hds⟩ := List.exists_cons_of_ne_nil h5
      refine ⟨digitChar d, ?_, digitChar_isDigit d (hf d (by rw [hds]; simp))⟩
      rw [canonStr]
      refine List.mem_append.mpr (Or.inr (List.mem_append.mpr (Or.inr ?_)))
      rw [if_neg h5, hds]
      simp
  simp only [nfUnformat, hstep1]
  rw [if_pos hsuffix, hstep2]
  rw [List.filter_append, List.filter_append, hsign, hgroup, hfracp,
    List.map_append, List.map_append, hsignmap, hintmap, hfracmap, ← canonStr]
  rw [if_pos hany, if_neg (by rintro ⟨hcl, -⟩; simp at hcl)]

theorem parseNumeric_canonStr (n : NumParts)
    (hi : ∀ d ∈ n.intDigits, d < 10) (hf : ∀ d ∈ n.fracDigits, d < 10)
    (hne : n.intDigits ≠ [] ∨ n.fracDigits ≠ []) :
    parseNumeric (canonStr n) = some n := by
  obtain ⟨neg, is, fs⟩ := n
  simp only at hi hf hne
  by_cases hfs : fs = []
  · subst hfs
    have hisne : is ≠ [] := by
      rcases hne with h | h
      · exact h
      · exact absurd rfl h
    simp only [canonStr, if_pos rfl, List.append_nil]
    cases neg
    · simpa using parseNumeric_unsigned_digits is hi hisne
    · simpa using parseNumeric_signed_digits is hi hisne
  · have hxs_dot : ∀ c ∈ is.map digitChar, (!(c == '.')) = true := by
      intro c hc
      obtain ⟨d, hd, rfl⟩ := List.mem_map.mp hc
      simp [digitChar_ne_dot d (hi d hd)]
    have htake : (is.map digitChar ++ '.' :: fs.map digitChar).takeWhile
        (fun c => !(c == '.')) = is.map digitChar := by
      rw [takeWhile_append_all _ _ _ hxs_dot, List.takeWhile_cons]
      simp
    have hdrop : (is.map digitChar ++ '.' :: fs.map digitChar).dropWhile
        (fun c => !(c == '.')) = '.' :: fs.map digitChar := by
      rw [dropWhile_append_all _ _ _ hxs_dot, List.dropWhile_cons]
      simp
    have hdigsI : (is.map digitChar).all Char.isDigit = true := by
      refine List.all_eq_true.mpr ?_
      intro c hc
      obtain ⟨d, hd, rfl⟩ := List.mem_map.mp hc
      exact digitChar_isDigit d (hi d hd)
    have hdigsF : (fs.map digitChar).all Char.isDigit = true := by
      refine List.all_eq_true.mpr ?_
      intro c hc
      obtain ⟨d, hd, rfl⟩ := List.mem_map.mp hc
      exact digitChar_isDigit d (hf d hd)
    have hmapI : (is.map digitChar).map charDigit = is := by
      rw [List.map_map]
      exact mapIdOn is _ (fun d hd => by simp [charDigit_digitChar d (hi d hd)])
    have hmapF : (fs.map digitChar).map charDigit = fs := by
      rw [List.map_map]
      exact mapIdOn fs _ (fun d hd => by simp [charDigit_digitChar d (hf d hd)])
    have hfse : (fs.map digitChar).isEmpty = false := by
      obtain ⟨d, ds, hds⟩ := List.exists_cons_of_ne_nil hfs
      rw [hds]
      rfl
    have hdigsI' := List.all_eq_true.mp hdigsI
    have hdigsF' := List.all_eq_true.mp hdigsF
    have hfse2 : fs.map digitChar ≠ [] := by
      obtain ⟨d, ds, hds⟩ := List.exists_cons_of_ne_nil hfs
      rw [hds]
      simp
    have hI2 : ∀ a ∈ is, (digitChar a).isDigit = true :=
      fun a ha => digitChar_isDigit a (hi a ha)
    have hF2 : ∀ a ∈ fs, (digitChar a).isDigit = true :=
      fun a ha => digitChar_isDigit a (hf a ha)
    have hmapIc : List.map (charDigit ∘ digitChar) is = is := by
      rw [← List.map_map]
      exact hmapI
    have hmapFc : List.map (charDigit ∘ digitChar) fs = fs := by
      rw [← List.map_map]
      exact hmapF
    simp only [canonStr, if_neg hfs]
    cases neg
    · have hh : ((is.map digitChar ++ '.' :: fs.map digitChar).head? == some '-') = false := by
        cases his : is with
        | nil => simp
        | cons d ds =>
          have hd10 : d < 10 := hi d (by rw [his]; simp)
          simp [digitChar_ne_minus d hd10]
      simp only [Bool.false_eq_true, if_false, List.nil_append, parseNumeric, hh, htake,
        hdrop, List.tail_cons]
      rw [if_pos (by
        simp [htake, hdrop, hfse2]
        exact ⟨hI2, hF2⟩)]
      simp [htake, hdrop, hmapI, hmapF, hmapIc, hmapFc]
    · simp only [List.singleton_append, parseNumeric, List.head?_cons, beq_self_eq_true,
      List.tail_cons, htake, hdrop]
      rw [if_pos (by
        simp [htake, hdrop, hfse2]
        exact ⟨hI2, hF2⟩)]
      simp [htake, hdrop, hmapI, hmapF, hmapIc, hmapFc]

/-- C5: the modelled formatter is idempotent through a round trip: for every
numeric-looking input and well-formed separator/decimal configuration,
formatting the unformatted formatted value reproduces the formatted value;
the inner normalisation (rounding, padding, trimming) is idempotent and
unformat exactly inverts the rendering. -/
theorem c5_format_unformat_format_idempotent (opts : Options) (x : Str)
    (hsep1 : ¬ opts.separator.isDigit = true) (hsep2 : opts.separator ≠ '-')
    (hsep3 : opts.separator ≠ opts.decimal)
    (hd1 : ¬ opts.decimal.isDigit = true) (hd2 : opts.decimal ≠ '-')
    (hmp : opts.minFracDigits ≤ opts.precision)
    (hx : (parseNumeric x).isSome = true) :
    nfFormat opts (nfUnformat opts false (nfFormat opts x)) = nfFormat opts x := by
  obtain ⟨n, hn⟩ := Option.isSome_iff_exists.mp hx
  obtain ⟨hi, hf⟩ := parseNumeric_lt10 x n hn
  have hxne : x ≠ [] := by
    intro h
    have hnil : parseNumeric ([] : Str) = none := rfl
    rw [h, hnil] at hn
    exact Option.noConfusion hn
  have hfmt : nfFormat opts x = renderNum opts (canonicalize opts n) := by
    rw [nfFormat, if_neg (fun hcon => hxne hcon.1), hn]
  obtain ⟨hci, hcf⟩ := canonicalize_lt10 opts n hi hf
  have hcne := canonicalize_nonempty opts n
  have hur : nfUnformat opts false (nfFormat opts x) = canonStr (canonicalize opts n) := by
    rw [hfmt]
    exact unformat_render opts (canonicalize opts n) hsep1 hsep2 hsep3 hd1 hd2 hci hcf hcne
  have hpc : parseNumeric (canonStr (canonicalize opts n)) = some (canonicalize opts n) :=
    parseNumeric_canonStr _ hci hcf hcne
  rw [hur, nfFormat, if_neg (fun hcon => canonStr_ne_nil _ hcne hcon.1), hpc]
  show renderNum opts (canonicalize opts (canonicalize opts n)) = nfFormat opts x
  rw [canonicalize_idem opts n hmp, ← hfmt]

theorem c5_witness :
    (parseNumeric c5x).isSome = true ∧
      nfFormat c5opts c5x = "$1,234.57".data ∧
      nfFormat c5opts (nfUnformat c5opts false (nfFormat c5opts c5x)) = nfFormat c5opts c5x :=
  ⟨by decide, by decide,
    c5_format_unformat_format_idempotent c5opts c5x (by decide) (by decide) (by decide)
      (by decide) (by decide) (by decide) (by decide)⟩
